import Mathlib

/-!
# Verification of the dockerfiles generation tool

A shallow embedding, in Lean 4, of the configuration-resolution and
build-ordering pipeline of the `dockerfiles` repository:

* `tool/internal/workflow/workflow.go` — job graph construction and the
  depth-first topological sort (`topologicalSort`), and the dependency
  extractor over rendered build files (`parseDockerfileDependencies`);
* `tool/internal/template/data.go` — the render-data context and the
  origin-directive resolver (`fromImage`);
* `tool/internal/config` — configuration overlays and their merge
  (`Merge`, `mergeInto`, `deepCopy`, `deepCopyValue`).

Go maps are embedded as association lists (first binding wins on lookup,
matching a map in which keys are unique); Go `nil` pointers are embedded as
`Option`; the unbounded recursions of the source (the DFS `visit` closure and
the symbolic-reference chain in `fromImage`) are embedded with an explicit
fuel parameter, `none`/a distinguished error standing for the divergence or
panic the source would exhibit; theorems about those functions show the fuel
artifacts are unreachable under their hypotheses.
-/

namespace Dockerfiles

/-! ## Jobs (workflow.go) -/

/-- One (image, version) unit of work, `workflow.Job`. -/
structure Job where
  ID : String
  Name : String
  ImageName : String
  Version : String
  DockerfilePath : String
  Needs : List String
deriving DecidableEq, Repr

/-- Lookup in the `jobMap` built by `topologicalSort`: the Go loop
`jobMap[jobs[i].ID] = &jobs[i]` lets a later entry overwrite an earlier one,
so the last job with the given ID wins. -/
def jobLookup (jobs : List Job) (id : String) : Option Job :=
  jobs.foldl (fun acc j => if j.ID = id then some j else acc) none

/-- The mutable state threaded through the DFS `visit` closure:
`sorted`, `visited` and `visiting` of `topologicalSort`. -/
structure SortState where
  sorted : List Job
  visited : List String
  visiting : List String
deriving DecidableEq, Repr

/-- Runs a visiting function over a list of node IDs, short-circuiting on the
first error: the `for _, dep := range job.Needs` loop body of `visit`, and the
`for _, job := range jobs` loop of `topologicalSort`. -/
def visitAll (f : String → SortState → Except String SortState) :
    List String → SortState → Except String SortState
  | [], st => Except.ok st
  | d :: rest, st =>
    match f d st with
    | Except.error e => Except.error e
    | Except.ok st' => visitAll f rest st'

/-- The recursive `visit` closure of `topologicalSort`, with an explicit fuel
parameter standing for the unbounded recursion of the source.  The fuel error
and the lookup error are model artifacts: the source recurses without bound
and would dereference a nil pointer when a needed ID has no job; both are
proved unreachable under the hypotheses of the theorems below. -/
def visit (jobs : List Job) : Nat → String → SortState → Except String SortState
  | 0, _, _ => Except.error "model artifact: fuel exhausted"
  | fuel + 1, jobID, st =>
    if jobID ∈ st.visited then Except.ok st
    else if jobID ∈ st.visiting then
      Except.error ("circular dependency detected involving job " ++ jobID)
    else
      match jobLookup jobs jobID with
      | none => Except.error "model artifact: job not found"
      | some job =>
        let st1 : SortState := { st with visiting := jobID :: st.visiting }
        match visitAll (visit jobs fuel) job.Needs st1 with
        | Except.error e => Except.error e
        | Except.ok st2 =>
          Except.ok { sorted := st2.sorted ++ [job],
                      visited := jobID :: st2.visited,
                      visiting := st2.visiting.erase jobID }

/-- `topologicalSort` of workflow.go: visit every job's ID in list order,
returning the accumulated reverse-postorder on success. -/
def topologicalSort (jobs : List Job) : Except String (List Job) :=
  match visitAll (visit jobs (jobs.length + 1)) (jobs.map Job.ID)
      { sorted := [], visited := [], visiting := [] } with
  | Except.error e => Except.error e
  | Except.ok st => Except.ok st.sorted

/-- Dependency edge of the job graph: `a`'s job (as `topologicalSort` looks it
up) lists `b` in its `Needs`. -/
def depEdge (jobs : List Job) (a b : String) : Prop :=
  ∃ j, jobLookup jobs a = some j ∧ b ∈ j.Needs

/-- Every job of the list appears after all jobs its `Needs` set names. -/
def jobsInOrder (l : List Job) : Prop :=
  ∀ l1 j l2, l = l1 ++ j :: l2 → ∀ d ∈ j.Needs, d ∈ l1.map Job.ID

/-! ### Basic lemmas about `jobLookup` -/

theorem jobLookup_aux (id : String) :
    ∀ (l : List Job) (init : Option Job) (j : Job),
      l.foldl (fun acc j => if j.ID = id then some j else acc) init = some j →
      init = some j ∨ (j ∈ l ∧ j.ID = id) := by
  intro l
  induction l with
  | nil => intro init j h; exact Or.inl h
  | cons a rest ih =>
    intro init j h
    rcases ih _ j h with h' | h'
    · by_cases hid : a.ID = id
      · simp only [hid, if_pos rfl] at h'
        cases h'
        exact Or.inr ⟨List.mem_cons_self _ _, hid⟩
      · simp only [if_neg hid] at h'
        exact Or.inl h'
    · exact Or.inr ⟨List.mem_cons_of_mem _ h'.1, h'.2⟩

theorem jobLookup_some {jobs : List Job} {id : String} {j : Job}
    (h : jobLookup jobs id = some j) : j ∈ jobs ∧ j.ID = id := by
  rcases jobLookup_aux id jobs none j h with h' | h'
  · cases h'
  · exact h'

theorem jobLookup_isSome_aux (id : String) :
    ∀ (l : List Job) (init : Option Job),
      (∃ j ∈ l, j.ID = id) ∨ (∃ j, init = some j) →
      ∃ j, l.foldl (fun acc j => if j.ID = id then some j else acc) init = some j := by
  intro l
  induction l with
  | nil =>
    intro init h
    rcases h with ⟨j, hj, _⟩ | h
    · cases hj
    · exact h
  | cons a rest ih =>
    intro init h
    by_cases hid : a.ID = id
    · apply ih
      exact Or.inr ⟨a, by simp [hid]⟩
    · apply ih
      rcases h with ⟨j, hj, hjid⟩ | h
      · rcases List.mem_cons.mp hj with rfl | hj'
        · exact absurd hjid hid
        · exact Or.inl ⟨j, hj', hjid⟩
      · exact Or.inr (by simpa [hid] using h)

theorem jobLookup_of_mem {jobs : List Job} {id : String}
    (h : id ∈ jobs.map Job.ID) : ∃ j, jobLookup jobs id = some j := by
  rcases List.mem_map.mp h with ⟨j, hj, rfl⟩
  exact jobLookup_isSome_aux _ jobs none (Or.inl ⟨j, hj, rfl⟩)

theorem jobLookup_eq_of_nodup_aux (id : String) :
    ∀ (l : List Job) (j : Job), (l.map Job.ID).Nodup → j ∈ l → j.ID = id →
      ∀ init : Option Job, (∀ j', init = some j' → j' = j) →
        l.foldl (fun acc j => if j.ID = id then some j else acc) init = some j := by
  intro l
  induction l with
  | nil => intro j _ hj; cases hj
  | cons a rest ih =>
    intro j hnd hj hid init hinit
    have hnd' : (rest.map Job.ID).Nodup := (List.nodup_cons.mp (by simpa using hnd)).2
    have hna : a.ID ∉ rest.map Job.ID := (List.nodup_cons.mp (by simpa using hnd)).1
    rcases List.mem_cons.mp hj with rfl | hj'
    · -- j is the head; no later element has this ID, so the fold keeps `some j`
      have : ∀ b ∈ rest, b.ID ≠ id := by
        intro b hb hbid
        exact hna (hid ▸ hbid ▸ List.mem_map_of_mem Job.ID hb)
      have hkeep : ∀ (m : List Job) (st : Option Job), (∀ b ∈ m, b.ID ≠ id) →
          m.foldl (fun acc j => if j.ID = id then some j else acc) st = st := by
        intro m
        induction m with
        | nil => intro st _; rfl
        | cons b mrest ihm =>
          intro st hm
          have hb : b.ID ≠ id := hm b (List.mem_cons_self _ _)
          simp only [List.foldl_cons, if_neg hb]
          exact ihm st (fun c hc => hm c (List.mem_cons_of_mem _ hc))
      simp only [List.foldl_cons, if_pos hid]
      exact hkeep rest (some j) this
    · -- j is in the tail
      simp only [List.foldl_cons]
      apply ih j hnd' hj' hid
      intro j' hj'eq
      by_cases ha : a.ID = id
      · rw [if_pos ha] at hj'eq
        cases hj'eq
        exfalso
        exact hna (by rw [ha, ← hid]; exact List.mem_map_of_mem Job.ID hj')
      · rw [if_neg ha] at hj'eq
        exact hinit j' hj'eq

theorem jobLookup_eq_of_nodup {jobs : List Job} {j : Job}
    (hnd : (jobs.map Job.ID).Nodup) (hj : j ∈ jobs) :
    jobLookup jobs j.ID = some j := by
  apply jobLookup_eq_of_nodup_aux j.ID jobs j hnd hj rfl none
  intro j' h
  cases h

/-- A nodup list contained in `m` is no longer than `m.dedup`. -/
theorem length_le_dedup {l m : List String} (hn : l.Nodup)
    (hsub : ∀ x ∈ l, x ∈ m) : l.length ≤ m.dedup.length := by
  have h1 : l.length = l.toFinset.card := (List.toFinset_card_of_nodup hn).symm
  have h2 : m.dedup.length = m.toFinset.card := by
    rw [← List.toFinset_card_of_nodup (List.nodup_dedup m)]
    congr 1
    ext x
    simp [List.mem_dedup]
  rw [h1, h2]
  apply Finset.card_le_card
  intro x hx
  exact List.mem_toFinset.mpr (hsub x (List.mem_toFinset.mp hx))

/-- Appending a job whose needs all occur in `l` preserves the ordering
property. -/
theorem jobsInOrder_append {l : List Job} {job : Job}
    (h : jobsInOrder l) (hd : ∀ d ∈ job.Needs, d ∈ l.map Job.ID) :
    jobsInOrder (l ++ [job]) := by
  intro l1 j l2 heq d hdn
  rcases List.eq_nil_or_concat l2 with rfl | ⟨l2', z, rfl⟩
  · -- decomposition ends at the appended job
    have hlen : l.length = l1.length := by
      have h' := congrArg List.length heq
      simp at h'
      omega
    obtain ⟨h1, h2⟩ := List.append_inj heq hlen
    have hjj : job = j := by simpa using h2
    subst h1
    subst hjj
    exact hd d hdn
  · -- decomposition lies inside l
    have heq' : l ++ [job] = (l1 ++ j :: l2') ++ [z] := by
      simpa [List.concat_eq_append, List.append_assoc] using heq
    have hlen : l.length = (l1 ++ j :: l2').length := by
      have h' := congrArg List.length heq'
      simp at h' ⊢
      omega
    obtain ⟨h1, _⟩ := List.append_inj heq' hlen
    exact h l1 j l2' h1 d hdn

/-- Along a chain of reverse dependency edges, every member reaches the
head. -/
theorem chain_reach {E : String → String → Prop} :
    ∀ (t : List String) (h : String),
      List.Chain' (fun a b => E b a) (h :: t) →
      ∀ x ∈ h :: t, x = h ∨ Relation.TransGen E x h := by
  intro t
  induction t with
  | nil =>
    intro h _ x hx
    exact Or.inl (by simpa using hx)
  | cons b t' ih =>
    intro h hch x hx
    have hEbh : E b h := (List.chain'_cons.mp hch).1
    have hch' : List.Chain' (fun a b => E b a) (b :: t') := (List.chain'_cons.mp hch).2
    rcases List.mem_cons.mp hx with rfl | hx'
    · exact Or.inl rfl
    · rcases ih b hch' x hx' with rfl | htr
      · exact Or.inr (Relation.TransGen.single hEbh)
      · exact Or.inr (htr.tail hEbh)

/-! ### The DFS invariant -/

/-- The invariant maintained by `visit` over the sort state. -/
structure Inv (jobs : List Job) (st : SortState) : Prop where
  nodupVisiting : st.visiting.Nodup
  visitingIDs : ∀ x ∈ st.visiting, x ∈ jobs.map Job.ID
  visitedIff : ∀ x, x ∈ st.visited ↔ x ∈ st.sorted.map Job.ID
  nodupSorted : (st.sorted.map Job.ID).Nodup
  sortedLookup : ∀ j ∈ st.sorted, jobLookup jobs j.ID = some j
  ordered : jobsInOrder st.sorted

/-- The error message built by `visit` on a cycle. -/
def cycleMsg (cid : String) : String :=
  "circular dependency detected involving job " ++ cid

/-- Preconditions of one `visit` call. -/
def VisitPre (jobs : List Job) (id : String) (st : SortState) : Prop :=
  Inv jobs st ∧ id ∈ jobs.map Job.ID ∧
    (st.visiting = [] ∨ ∃ h t, st.visiting = h :: t ∧ depEdge jobs h id) ∧
    List.Chain' (fun a b => depEdge jobs b a) st.visiting

/-- Postcondition of a successful `visit` call. -/
def VisitPost (jobs : List Job) (st st' : SortState) (id : String) : Prop :=
  Inv jobs st' ∧ st'.visiting = st.visiting ∧
    (∀ x ∈ st.visited, x ∈ st'.visited) ∧ id ∈ st'.visited ∧
    (∀ x ∈ st'.visited, x ∈ st.visited ∨ x ∉ st.visiting)

/-- Soundness of `visit` at a given fuel: under the preconditions and with
fuel at least the number of not-currently-visiting IDs, `visit` either
succeeds preserving the invariant or fails with the cycle error, naming an ID
that really lies on a dependency cycle. -/
def VisitOK (jobs : List Job) (fuel : Nat) : Prop :=
  ∀ id st, VisitPre jobs id st →
    (jobs.map Job.ID).dedup.length + 1 ≤ fuel + st.visiting.length →
    (∃ st', visit jobs fuel id st = Except.ok st' ∧ VisitPost jobs st st' id) ∨
    (∃ cid, visit jobs fuel id st = Except.error (cycleMsg cid) ∧
        Relation.TransGen (depEdge jobs) cid cid)

theorem visitAll_sound (jobs : List Job) (fuel : Nat) (hv : VisitOK jobs fuel) :
    ∀ (deps : List String) (st : SortState),
      Inv jobs st →
      (∀ d ∈ deps, d ∈ jobs.map Job.ID) →
      (∀ d ∈ deps, st.visiting = [] ∨ ∃ h t, st.visiting = h :: t ∧ depEdge jobs h d) →
      List.Chain' (fun a b => depEdge jobs b a) st.visiting →
      (jobs.map Job.ID).dedup.length + 1 ≤ fuel + st.visiting.length →
      (∃ st2, visitAll (visit jobs fuel) deps st = Except.ok st2 ∧
          Inv jobs st2 ∧ st2.visiting = st.visiting ∧
          (∀ x ∈ st.visited, x ∈ st2.visited) ∧
          (∀ d ∈ deps, d ∈ st2.visited) ∧
          (∀ x ∈ st2.visited, x ∈ st.visited ∨ x ∉ st.visiting)) ∨
      (∃ cid, visitAll (visit jobs fuel) deps st = Except.error (cycleMsg cid) ∧
          Relation.TransGen (depEdge jobs) cid cid) := by
  intro deps
  induction deps with
  | nil =>
    intro st hinv _ _ _ _
    exact Or.inl ⟨st, rfl, hinv, rfl, fun x hx => hx, by simp, fun x hx => Or.inl hx⟩
  | cons d rest ih =>
    intro st hinv hids hedges hchain hfuel
    rcases hv d st ⟨hinv, hids d (List.mem_cons_self _ _),
        hedges d (List.mem_cons_self _ _), hchain⟩ hfuel with
      ⟨st', hok, hinv', hvis', hmono', hdvis', hnew'⟩ | ⟨cid, herr, hcyc⟩
    · have hrest := ih st' hinv'
        (fun x hx => hids x (List.mem_cons_of_mem _ hx))
        (fun x hx => hvis' ▸ hedges x (List.mem_cons_of_mem _ hx))
        (hvis' ▸ hchain) (by rw [hvis']; exact hfuel)
      rcases hrest with ⟨st2, hok2, hinv2, hvis2, hmono2, hdvis2, hnew2⟩ | ⟨cid, herr2, hcyc2⟩
      · refine Or.inl ⟨st2, ?_, hinv2, hvis2.trans hvis', fun x hx => hmono2 x (hmono' x hx), ?_, ?_⟩
        · simp only [visitAll, hok]
          exact hok2
        · intro x hx
          rcases List.mem_cons.mp hx with rfl | hx'
          · exact hmono2 x hdvis'
          · exact hdvis2 x hx'
        · intro x hx
          rcases hnew2 x hx with hx' | hnv
          · rcases hnew' x hx' with h | h
            · exact Or.inl h
            · exact Or.inr h
          · rw [hvis'] at hnv
            exact Or.inr hnv
      · refine Or.inr ⟨cid, ?_, hcyc2⟩
        simp only [visitAll, hok]
        exact herr2
    · refine Or.inr ⟨cid, ?_, hcyc⟩
      simp only [visitAll, herr]

theorem visitOK (jobs : List Job)
    (hclosed : ∀ j ∈ jobs, ∀ d ∈ j.Needs, d ∈ jobs.map Job.ID) :
    ∀ fuel, VisitOK jobs fuel := by
  intro fuel
  induction fuel with
  | zero =>
    intro id st hpre hfuel
    exfalso
    have hlen := length_le_dedup hpre.1.nodupVisiting hpre.1.visitingIDs
    omega
  | succ fuel ih =>
    intro id st hpre hfuel
    obtain ⟨hinv, hid, hedge, hchain⟩ := hpre
    by_cases h1 : id ∈ st.visited
    · refine Or.inl ⟨st, ?_, hinv, rfl, fun x hx => hx, h1, fun x hx => Or.inl hx⟩
      simp only [visit, if_pos h1]
    · by_cases h2 : id ∈ st.visiting
      · refine Or.inr ⟨id, ?_, ?_⟩
        · simp only [visit, if_neg h1, if_pos h2]
          rfl
        · rcases hedge with hemp | ⟨h, t, hvis, hE⟩
          · rw [hemp] at h2; cases h2
          · rw [hvis] at h2 hchain
            rcases chain_reach t h hchain id h2 with rfl | htr
            · exact Relation.TransGen.single hE
            · exact htr.tail hE
      · obtain ⟨job, hjob⟩ := jobLookup_of_mem hid
        obtain ⟨hjmem, hjid⟩ := jobLookup_some hjob
        have hst1inv : Inv jobs { st with visiting := id :: st.visiting } :=
          { nodupVisiting := List.nodup_cons.mpr ⟨h2, hinv.nodupVisiting⟩
            visitingIDs := by
              intro x hx
              rcases List.mem_cons.mp hx with rfl | hx'
              · exact hid
              · exact hinv.visitingIDs x hx'
            visitedIff := hinv.visitedIff
            nodupSorted := hinv.nodupSorted
            sortedLookup := hinv.sortedLookup
            ordered := hinv.ordered }
        have hchain1 : List.Chain' (fun a b => depEdge jobs b a) (id :: st.visiting) := by
          rw [List.chain'_cons']
          refine ⟨?_, hchain⟩
          intro b hb
          rcases hedge with hemp | ⟨h, t, hvis, hE⟩
          · rw [hemp] at hb; cases hb
          · rw [hvis] at hb
            simp only [List.head?_cons, Option.mem_def, Option.some.injEq] at hb
            exact hb ▸ hE
        have hva := visitAll_sound jobs fuel ih job.Needs
            { st with visiting := id :: st.visiting } hst1inv
            (fun d hd => hclosed job hjmem d hd)
            (fun d _ => Or.inr ⟨id, st.visiting, rfl, job, hjob, ‹d ∈ job.Needs›⟩)
            hchain1
            (by simp only [List.length_cons]; omega)
        rcases hva with ⟨st2, hok2, hinv2, hvis2, hmono2, hdvis2, hnew2⟩ | ⟨cid, herr2, hcyc2⟩
        · have hidnot2 : id ∉ st2.visited := by
            intro hmem
            rcases hnew2 id hmem with h' | h'
            · exact h1 h'
            · exact h' (List.mem_cons_self _ _)
          have hidnotsort : id ∉ st2.sorted.map Job.ID := by
            intro hmem
            exact hidnot2 ((hinv2.visitedIff id).mpr hmem)
          refine Or.inl ⟨⟨st2.sorted ++ [job], id :: st2.visited, st2.visiting.erase id⟩,
            ?_, ?_, ?_, ?_, ?_, ?_⟩
          · simp only [visit, if_neg h1, if_neg h2, hjob]
            rw [hok2]
          · refine
              { nodupVisiting := ?_
                visitingIDs := ?_
                visitedIff := ?_
                nodupSorted := ?_
                sortedLookup := ?_
                ordered := ?_ }
            · rw [hvis2, List.erase_cons_head]
              exact hinv.nodupVisiting
            · rw [hvis2, List.erase_cons_head]
              exact hinv.visitingIDs
            · intro x
              constructor
              · intro hx
                rcases List.mem_cons.mp hx with rfl | hx'
                · simp [hjid]
                · simp only [List.map_append]
                  exact List.mem_append_left _ ((hinv2.visitedIff x).mp hx')
              · intro hx
                simp only [List.map_append, List.mem_append, List.map_cons,
                  List.map_nil] at hx
                rcases hx with hx' | hx'
                · exact List.mem_cons_of_mem _ ((hinv2.visitedIff x).mpr hx')
                · have hxid : x = job.ID := by simpa using hx'
                  rw [hxid, hjid]
                  exact List.mem_cons_self _ _
            · simp only [List.map_append, List.map_cons, List.map_nil, hjid]
              rw [List.nodup_append]
              refine ⟨hinv2.nodupSorted, List.nodup_singleton id, ?_⟩
              intro a ha hb
              have hab : a = id := by simpa using hb
              subst hab
              exact hidnotsort ha
            · intro j' hj'
              rcases List.mem_append.mp hj' with h' | h'
              · exact hinv2.sortedLookup j' h'
              · have : j' = job := by simpa using h'
                subst this
                rw [hjid]
                exact hjob
            · refine jobsInOrder_append hinv2.ordered ?_
              intro dd hdd
              exact (hinv2.visitedIff dd).mp (hdvis2 dd hdd)
          · show st2.visiting.erase id = st.visiting
            rw [hvis2, List.erase_cons_head]
          · intro x hx
            exact List.mem_cons_of_mem _ (hmono2 x hx)
          · exact List.mem_cons_self _ _
          · intro x hx
            rcases List.mem_cons.mp hx with rfl | hx'
            · exact Or.inr h2
            · rcases hnew2 x hx' with h' | h'
              · exact Or.inl h'
              · exact Or.inr (fun hmem => h' (List.mem_cons_of_mem _ hmem))
        · refine Or.inr ⟨cid, ?_, hcyc2⟩
          simp only [visit, if_neg h1, if_neg h2, hjob]
          rw [herr2]

/-- The empty sort state satisfies the invariant. -/
theorem inv_empty (jobs : List Job) : Inv jobs ⟨[], [], []⟩ :=
  { nodupVisiting := List.nodup_nil
    visitingIDs := by intro x hx; cases hx
    visitedIff := by intro x; simp
    nodupSorted := by simp
    sortedLookup := by intro j hj; cases hj
    ordered := by
      intro l1 j l2 h d _
      exfalso
      cases l1 <;> simp at h }

/-- In a dependency-ordered output covering all jobs, every edge strictly
decreases the index. -/
theorem edge_index_lt (jobs sorted : List Job)
    (hnd : (sorted.map Job.ID).Nodup)
    (hlook : ∀ j ∈ sorted, jobLookup jobs j.ID = some j)
    (hord : jobsInOrder sorted)
    (hcover : ∀ x ∈ jobs.map Job.ID, x ∈ sorted.map Job.ID) :
    ∀ a b, depEdge jobs a b →
      (sorted.map Job.ID).indexOf b < (sorted.map Job.ID).indexOf a := by
  rintro a b ⟨j, hl, hb⟩
  obtain ⟨hjmem, hjid⟩ := jobLookup_some hl
  have hamem : a ∈ sorted.map Job.ID :=
    hcover a (hjid ▸ List.mem_map_of_mem Job.ID hjmem)
  rcases List.mem_map.mp hamem with ⟨j', hj'mem, hj'id⟩
  have hj'j : j' = j := by
    have h1 := hlook j' hj'mem
    rw [hj'id, hl] at h1
    exact (Option.some_inj.mp h1).symm
  subst hj'j
  obtain ⟨l1, l2, hdec⟩ := List.append_of_mem hj'mem
  have hbmem : b ∈ l1.map Job.ID := hord l1 j' l2 hdec b hb
  have hmap : sorted.map Job.ID = l1.map Job.ID ++ a :: l2.map Job.ID := by
    rw [hdec]
    simp [hj'id]
  have hanotl1 : a ∉ l1.map Job.ID := by
    intro hmem
    rw [hmap] at hnd
    exact (List.nodup_append.mp hnd).2.2 hmem (List.mem_cons_self _ _)
  rw [hmap]
  rw [List.indexOf_append_of_mem hbmem, List.indexOf_append_of_not_mem hanotl1]
  calc List.indexOf b (l1.map Job.ID) < (l1.map Job.ID).length :=
        List.indexOf_lt_length.mpr hbmem
    _ ≤ (l1.map Job.ID).length + List.indexOf a (a :: l2.map Job.ID) := Nat.le_add_right _ _

/-- A transitive chain of edges strictly decreases any edge-decreasing
measure. -/
theorem transGen_lt {r : String → String → Prop} {f : String → Nat}
    (hstep : ∀ a b, r a b → f b < f a) :
    ∀ a b, Relation.TransGen r a b → f b < f a := by
  intro a b htr
  induction htr with
  | single h => exact hstep _ _ h
  | tail _ h ih => exact lt_trans (hstep _ _ h) ih

/-- A transitive chain starts with an edge. -/
theorem transGen_head {r : String → String → Prop} :
    ∀ a b, Relation.TransGen r a b → ∃ c, r a c := by
  intro a b htr
  induction htr with
  | single h => exact ⟨_, h⟩
  | tail _ _ ih => exact ih

/-- If according to a rank function every job's needs rank strictly below the
job itself, the dependency graph is acyclic. -/
theorem acyclic_of_ranks (jobs : List Job) (r : String → Nat)
    (h : ∀ j ∈ jobs, ∀ d ∈ j.Needs, r d < r j.ID) :
    ∀ id, ¬ Relation.TransGen (depEdge jobs) id id := by
  have hstep : ∀ a b, depEdge jobs a b → r b < r a := by
    rintro a b ⟨j, hl, hb⟩
    obtain ⟨hmem, hid⟩ := jobLookup_some hl
    have h' := h j hmem b hb
    rwa [hid] at h'
  intro id hid
  exact lt_irrefl _ (transGen_lt hstep id id hid)

/-! ### Claim theorems for the topological sort -/

/-- C1. For every job list with distinct IDs whose dependency edges stay among
the jobs and form an acyclic graph, `topologicalSort` succeeds and returns a
permutation of the input in which every job appears exactly once, each after
all jobs its `Needs` set names. -/
theorem topologicalSort_acyclic (jobs : List Job)
    (hnd : (jobs.map Job.ID).Nodup)
    (hclosed : ∀ j ∈ jobs, ∀ d ∈ j.Needs, d ∈ jobs.map Job.ID)
    (hacyc : ∀ id, ¬ Relation.TransGen (depEdge jobs) id id) :
    ∃ sorted, topologicalSort jobs = Except.ok sorted ∧
      sorted.Perm jobs ∧ jobsInOrder sorted := by
  have hva := visitAll_sound jobs (jobs.length + 1) (visitOK jobs hclosed _)
      (jobs.map Job.ID) ⟨[], [], []⟩ (inv_empty jobs)
      (fun d hd => hd) (fun d _ => Or.inl rfl) List.chain'_nil
      (by
        have h1 : (jobs.map Job.ID).dedup.length ≤ (jobs.map Job.ID).length :=
          List.Sublist.length_le (List.dedup_sublist _)
        simp only [List.length_map] at h1
        omega)
  rcases hva with ⟨st2, hok2, hinv2, _, _, hdvis2, _⟩ | ⟨cid, _, hcyc⟩
  · refine ⟨st2.sorted, ?_, ?_, hinv2.ordered⟩
    · simp only [topologicalSort, hok2]
    · rw [List.perm_ext_iff_of_nodup (hinv2.nodupSorted.of_map) (hnd.of_map)]
      intro j
      constructor
      · intro hj
        exact (jobLookup_some (hinv2.sortedLookup j hj)).1
      · intro hj
        have hidmem : j.ID ∈ st2.sorted.map Job.ID :=
          (hinv2.visitedIff j.ID).mp (hdvis2 j.ID (List.mem_map_of_mem Job.ID hj))
        rcases List.mem_map.mp hidmem with ⟨j', hj'mem, hj'id⟩
        have h1 := hinv2.sortedLookup j' hj'mem
        rw [hj'id] at h1
        rw [jobLookup_eq_of_nodup hnd hj] at h1
        cases h1
        exact hj'mem
  · exact absurd hcyc (hacyc cid)

/-- C2. For every job list with distinct IDs whose dependency edges stay among
the jobs and contain a cycle, `topologicalSort` fails with the
circular-dependency error naming a job that really lies on a cycle, and no
ordering is returned. -/
theorem topologicalSort_cycle (jobs : List Job)
    (_hnd : (jobs.map Job.ID).Nodup)
    (hclosed : ∀ j ∈ jobs, ∀ d ∈ j.Needs, d ∈ jobs.map Job.ID)
    (hcyc : ∃ id, Relation.TransGen (depEdge jobs) id id) :
    ∃ cid, topologicalSort jobs = Except.error (cycleMsg cid) ∧
      cid ∈ jobs.map Job.ID ∧
      Relation.TransGen (depEdge jobs) cid cid := by
  have hva := visitAll_sound jobs (jobs.length + 1) (visitOK jobs hclosed _)
      (jobs.map Job.ID) ⟨[], [], []⟩ (inv_empty jobs)
      (fun d hd => hd) (fun d _ => Or.inl rfl) List.chain'_nil
      (by
        have h1 : (jobs.map Job.ID).dedup.length ≤ (jobs.map Job.ID).length :=
          List.Sublist.length_le (List.dedup_sublist _)
        simp only [List.length_map] at h1
        omega)
  rcases hva with ⟨st2, _, hinv2, _, _, hdvis2, _⟩ | ⟨cid, herr, hcyc'⟩
  · exfalso
    obtain ⟨id, hid⟩ := hcyc
    have hcover : ∀ x ∈ jobs.map Job.ID, x ∈ st2.sorted.map Job.ID := by
      intro x hx
      exact (hinv2.visitedIff x).mp (hdvis2 x hx)
    have hlt := transGen_lt
      (edge_index_lt jobs st2.sorted hinv2.nodupSorted hinv2.sortedLookup
        hinv2.ordered hcover) id id hid
    exact lt_irrefl _ hlt
  · refine ⟨cid, ?_, ?_, hcyc'⟩
    · simp only [topologicalSort, herr]
    · obtain ⟨c, j, hl, _⟩ := transGen_head cid cid hcyc'
      obtain ⟨hmem, hid⟩ := jobLookup_some hl
      exact hid ▸ List.mem_map_of_mem Job.ID hmem

/-! ### Concrete instances -/

/-- The diamond example of the spec: `a` (no deps), `b` and `c` (need `a`),
`d` (needs `b` and `c`). -/
def jobsDiamond : List Job :=
  [⟨"a", "Build a:v1", "a", "v1", "images/a/v1/Dockerfile", []⟩,
   ⟨"b", "Build b:v1", "b", "v1", "images/b/v1/Dockerfile", ["a"]⟩,
   ⟨"c", "Build c:v1", "c", "v1", "images/c/v1/Dockerfile", ["a"]⟩,
   ⟨"d", "Build d:v1", "d", "v1", "images/d/v1/Dockerfile", ["b", "c"]⟩]

theorem topologicalSort_acyclic_witness :
    ∃ sorted, topologicalSort jobsDiamond = Except.ok sorted ∧
      sorted.Perm jobsDiamond ∧ jobsInOrder sorted :=
  topologicalSort_acyclic jobsDiamond (by decide) (by decide)
    (acyclic_of_ranks jobsDiamond
      (fun id => if id = "a" then 0 else if id = "d" then 2 else 1) (by decide))

/-- The two jobs of the spec's cycle example: `a` needs `b`, `b` needs `a`. -/
def jobCycA : Job := ⟨"a", "Build a:v1", "a", "v1", "images/a/v1/Dockerfile", ["b"]⟩

def jobCycB : Job := ⟨"b", "Build b:v1", "b", "v1", "images/b/v1/Dockerfile", ["a"]⟩

def jobsCycle : List Job := [jobCycA, jobCycB]

theorem topologicalSort_cycle_witness :
    ∃ cid, topologicalSort jobsCycle = Except.error (cycleMsg cid) ∧
      cid ∈ jobsCycle.map Job.ID ∧
      Relation.TransGen (depEdge jobsCycle) cid cid :=
  topologicalSort_cycle jobsCycle (by decide) (by decide)
    ⟨"a", Relation.TransGen.tail
        (Relation.TransGen.single
          (show depEdge jobsCycle "a" "b" from ⟨jobCycA, by decide, by decide⟩))
        (show depEdge jobsCycle "b" "a" from ⟨jobCycB, by decide, by decide⟩)⟩

/-! ## Configuration values (config package)

Go `interface{}` values as they occur in `ImageConfig.Values` and in the
template data map: strings, `*config.BaseImage` pointers,
`map[string]interface{}` (as association lists with unique keys, first
binding wins), `[]interface{}`, and any other scalar carried opaquely
together with its `fmt` display text. -/

/-- `config.BaseImage`. -/
structure BaseImage where
  Name : String
  Source : String
deriving DecidableEq, Repr

inductive Value where
  | str : String → Value
  | base : BaseImage → Value
  | vmap : List (String × Value) → Value
  | vseq : List Value → Value
  | other : String → Value

mutual

def decEqValue : (a b : Value) → Decidable (a = b)
  | Value.str a, Value.str b =>
    match decEq a b with
    | isTrue h => isTrue (by rw [h])
    | isFalse h => isFalse (fun he => h (Value.str.inj he))
  | Value.base a, Value.base b =>
    match decEq a b with
    | isTrue h => isTrue (by rw [h])
    | isFalse h => isFalse (fun he => h (Value.base.inj he))
  | Value.vmap a, Value.vmap b =>
    match decEqEntries a b with
    | isTrue h => isTrue (by rw [h])
    | isFalse h => isFalse (fun he => h (Value.vmap.inj he))
  | Value.vseq a, Value.vseq b =>
    match decEqVList a b with
    | isTrue h => isTrue (by rw [h])
    | isFalse h => isFalse (fun he => h (Value.vseq.inj he))
  | Value.other a, Value.other b =>
    match decEq a b with
    | isTrue h => isTrue (by rw [h])
    | isFalse h => isFalse (fun he => h (Value.other.inj he))
  | Value.str _, Value.base _ => isFalse (fun h => Value.noConfusion h)
  | Value.str _, Value.vmap _ => isFalse (fun h => Value.noConfusion h)
  | Value.str _, Value.vseq _ => isFalse (fun h => Value.noConfusion h)
  | Value.str _, Value.other _ => isFalse (fun h => Value.noConfusion h)
  | Value.base _, Value.str _ => isFalse (fun h => Value.noConfusion h)
  | Value.base _, Value.vmap _ => isFalse (fun h => Value.noConfusion h)
  | Value.base _, Value.vseq _ => isFalse (fun h => Value.noConfusion h)
  | Value.base _, Value.other _ => isFalse (fun h => Value.noConfusion h)
  | Value.vmap _, Value.str _ => isFalse (fun h => Value.noConfusion h)
  | Value.vmap _, Value.base _ => isFalse (fun h => Value.noConfusion h)
  | Value.vmap _, Value.vseq _ => isFalse (fun h => Value.noConfusion h)
  | Value.vmap _, Value.other _ => isFalse (fun h => Value.noConfusion h)
  | Value.vseq _, Value.str _ => isFalse (fun h => Value.noConfusion h)
  | Value.vseq _, Value.base _ => isFalse (fun h => Value.noConfusion h)
  | Value.vseq _, Value.vmap _ => isFalse (fun h => Value.noConfusion h)
  | Value.vseq _, Value.other _ => isFalse (fun h => Value.noConfusion h)
  | Value.other _, Value.str _ => isFalse (fun h => Value.noConfusion h)
  | Value.other _, Value.base _ => isFalse (fun h => Value.noConfusion h)
  | Value.other _, Value.vmap _ => isFalse (fun h => Value.noConfusion h)
  | Value.other _, Value.vseq _ => isFalse (fun h => Value.noConfusion h)

def decEqEntries : (a b : List (String × Value)) → Decidable (a = b)
  | [], [] => isTrue rfl
  | [], _ :: _ => isFalse (fun h => List.noConfusion h)
  | _ :: _, [] => isFalse (fun h => List.noConfusion h)
  | (k1, v1) :: r1, (k2, v2) :: r2 =>
    match decEq k1 k2, decEqValue v1 v2, decEqEntries r1 r2 with
    | isTrue h1, isTrue h2, isTrue h3 => isTrue (by rw [h1, h2, h3])
    | isFalse h1, _, _ => isFalse (fun h => by cases h; exact h1 rfl)
    | isTrue _, isFalse h2, _ => isFalse (fun h => by cases h; exact h2 rfl)
    | isTrue _, isTrue _, isFalse h3 => isFalse (fun h => by cases h; exact h3 rfl)

def decEqVList : (a b : List Value) → Decidable (a = b)
  | [], [] => isTrue rfl
  | [], _ :: _ => isFalse (fun h => List.noConfusion h)
  | _ :: _, [] => isFalse (fun h => List.noConfusion h)
  | v1 :: r1, v2 :: r2 =>
    match decEqValue v1 v2, decEqVList r1 r2 with
    | isTrue h1, isTrue h2 => isTrue (by rw [h1, h2])
    | isFalse h1, _ => isFalse (fun h => by cases h; exact h1 rfl)
    | isTrue _, isFalse h2 => isFalse (fun h => by cases h; exact h2 rfl)

end

instance : DecidableEq Value := decEqValue

/-- Go map lookup on the association-list embedding. -/
def lookupValue : List (String × Value) → String → Option Value
  | [], _ => none
  | (k', v) :: rest, k => if k' = k then some v else lookupValue rest k

/-- Go map update `m[k] = v` for a key already present. -/
def updateAssoc : List (String × Value) → String → Value → List (String × Value)
  | [], _, _ => []
  | (k', v') :: rest, k, v =>
    if k' = k then (k', v) :: rest else (k', v') :: updateAssoc rest k v

mutual
/-- The display text `fmt.Sprintf("%v", x)` of the Go runtime, modelled
structurally (entry order of maps is kept as in the association list; no
theorem below depends on the display of composite values). -/
def displayValue : Value → String
  | Value.str s => s
  | Value.base b => "&\x7b" ++ b.Name ++ " " ++ b.Source ++ "\x7d"
  | Value.vmap m => "map[" ++ displayEntries m ++ "]"
  | Value.vseq l => "[" ++ displayItems l ++ "]"
  | Value.other t => t

def displayEntries : List (String × Value) → String
  | [] => ""
  | [(k, v)] => k ++ ":" ++ displayValue v
  | (k, v) :: rest => k ++ ":" ++ displayValue v ++ " " ++ displayEntries rest

def displayItems : List Value → String
  | [] => ""
  | [v] => displayValue v
  | v :: rest => displayValue v ++ " " ++ displayItems rest
end

mutual
/-- `config.deepCopyValue`: structurally copies maps and slices, returns
every other value as is. -/
def deepCopyValue : Value → Value
  | Value.str s => Value.str s
  | Value.base b => Value.base b
  | Value.vmap m => Value.vmap (deepCopyEntries m)
  | Value.vseq l => Value.vseq (deepCopyList l)
  | Value.other t => Value.other t

def deepCopyEntries : List (String × Value) → List (String × Value)
  | [] => []
  | (k, v) :: rest => (k, deepCopyValue v) :: deepCopyEntries rest

def deepCopyList : List Value → List Value
  | [] => []
  | v :: rest => deepCopyValue v :: deepCopyList rest
end

/-- `config.ImageConfig`: an optional base-image descriptor plus the open
mapping of named values. -/
structure ImageConfig where
  BaseImage : Option BaseImage
  Values : List (String × Value)
deriving DecidableEq

/-- `config.(*ImageConfig).deepCopy`, including the nil-receiver case. -/
def deepCopyIC : Option ImageConfig → Option ImageConfig
  | none => none
  | some ic =>
    some { BaseImage := ic.BaseImage.map (fun b => { Name := b.Name, Source := b.Source }),
           Values := deepCopyEntries ic.Values }

mutual
/-- The per-key action of `config.mergeInto`: when both sides hold a nested
mapping the maps are merged recursively, otherwise the (deep-copied) source
value replaces the destination value. -/
def mergeValue : Value → Value → Value
  | Value.vmap dm, Value.vmap sm => Value.vmap (mergeList dm sm)
  | _, s => deepCopyValue s

/-- `config.mergeInto(dest, source)`: fold the source entries into the
destination map. -/
def mergeList (dm : List (String × Value)) : List (String × Value) → List (String × Value)
  | [] => dm
  | (k, sv) :: rest =>
    mergeList
      (match lookupValue dm k with
       | some dv => updateAssoc dm k (mergeValue dv sv)
       | none => dm ++ [(k, deepCopyValue sv)])
      rest
end

/-- `config.(*ImageConfig).Merge(defaults)`, receiver first; both the
receiver and the argument may be Go `nil`. -/
def Merge (ic defaults : Option ImageConfig) : Option ImageConfig :=
  match defaults with
  | none => deepCopyIC ic
  | some df =>
    match ic with
    | none => deepCopyIC (some df)
    | some ov =>
      some { BaseImage :=
               match ov.BaseImage with
               | some b => some { Name := b.Name, Source := b.Source }
               | none =>
                 match df.BaseImage with
                 | some b => some { Name := b.Name, Source := b.Source }
                 | none => none,
             Values := mergeList (deepCopyEntries df.Values) ov.Values }

/-! ## Template data (data.go) -/

/-- `template.Data`: the per-render context. -/
structure Data where
  Values : List (String × Value)
  rootPathIncluded : Bool
  generationMessage : String
deriving DecidableEq

/-- The name extracted from a `map[string]interface{}` reference in
`fromImage`: `v["name"].(string)`, empty when absent or not a string. -/
def mapName (m : List (String × Value)) : String :=
  match lookupValue m "name" with
  | some (Value.str s) => s
  | _ => ""

/-- As `mapName`, for `v["source"].(string)`. -/
def mapSource (m : List (String × Value)) : String :=
  match lookupValue m "source" with
  | some (Value.str s) => s
  | _ => ""

/-- The resolution phase of `data.(*Data).fromImage`: the `switch` at its
head, which follows string references through the context values (the
`case string` re-enters `fromImage`, which modifies no state before the
terminal case, so resolution and emission factor apart).  The source
recursion is unbounded; fuel exhaustion (`none`) models the divergence the
source would exhibit on a cyclic reference chain. -/
def resolveImageRef (values : List (String × Value)) : Nat → Value → Option (String × String)
  | 0, _ => none
  | fuel + 1, v =>
    match v with
    | Value.str s =>
      match lookupValue values s with
      | some v' => resolveImageRef values fuel v'
      | none => some (s, "")
    | Value.base b => some (b.Name, b.Source)
    | Value.vmap m => some (mapName m, mapSource m)
    | v' => some (displayValue v', "")

/-- The emission phase of `data.(*Data).fromImage`: everything after the
`switch`, exactly the source's branch structure and strings. -/
def emitFromImage (d : Data) (imageName imageSource : String) : String × Data :=
  if imageSource = "dockerhub" then ("FROM " ++ imageName, d)
  else
    -- needsRegistryPath = imageSource != "dockerhub" holds in this branch,
    -- so imagePath always takes the registry-indirected form
    let imagePath := "${REGISTRY}/" ++ imageName
    -- needsRegistryArg = imageSource != "dockerhub" && !d.rootPathIncluded
    if d.rootPathIncluded then ("FROM " ++ imagePath, d)
    else
      match lookupValue d.Values "registry" with
      | none => ("# ERROR: registry not set in config\nFROM " ++ imagePath, d)
      | some (Value.str registry) =>
          ("ARG REGISTRY=" ++ registry ++ "\nFROM " ++ imagePath,
           { d with rootPathIncluded := true })
      | some _ => ("# ERROR: registry is not a string\nFROM " ++ imagePath, d)

/-- `data.(*Data).fromImage`, returning the emitted text and the updated
context; `none` models the source's divergence on a cyclic reference
chain. -/
def fromImage (d : Data) (fuel : Nat) (ref : Value) : Option (String × Data) :=
  match resolveImageRef d.Values fuel ref with
  | none => none
  | some (n, s) => some (emitFromImage d n s)

/-- Declarative characterisation of reference resolution: follow string
keys through the context values to the terminal descriptor or literal
name. -/
inductive ResolvesTo (values : List (String × Value)) : Value → String × String → Prop
  | strFound {s : String} {v : Value} {r : String × String} :
      lookupValue values s = some v → ResolvesTo values v r →
      ResolvesTo values (Value.str s) r
  | strFree {s : String} :
      lookupValue values s = none → ResolvesTo values (Value.str s) (s, "")
  | base (b : BaseImage) : ResolvesTo values (Value.base b) (b.Name, b.Source)
  | vmap (m : List (String × Value)) :
      ResolvesTo values (Value.vmap m) (mapName m, mapSource m)
  | vseq (l : List Value) :
      ResolvesTo values (Value.vseq l) (displayValue (Value.vseq l), "")
  | other (t : String) : ResolvesTo values (Value.other t) (t, "")

/-- One step of string-key indirection among the context values. -/
def stepsTo (values : List (String × Value)) (a b : String) : Prop :=
  lookupValue values a = some (Value.str b)

/-! ### Deep copy is the identity on the value semantics -/

mutual

theorem deepCopyValue_id : ∀ v : Value, deepCopyValue v = v
  | Value.str _ => rfl
  | Value.base _ => rfl
  | Value.vmap m => by rw [deepCopyValue, deepCopyEntries_id]
  | Value.vseq l => by rw [deepCopyValue, deepCopyList_id]
  | Value.other _ => rfl

theorem deepCopyEntries_id : ∀ m : List (String × Value), deepCopyEntries m = m
  | [] => rfl
  | (k, v) :: rest => by rw [deepCopyEntries, deepCopyValue_id, deepCopyEntries_id]

theorem deepCopyList_id : ∀ l : List Value, deepCopyList l = l
  | [] => rfl
  | v :: rest => by rw [deepCopyList, deepCopyValue_id, deepCopyList_id]

end

theorem deepCopyIC_some (ic : ImageConfig) : deepCopyIC (some ic) = some ic := by
  obtain ⟨bi, vals⟩ := ic
  simp only [deepCopyIC, deepCopyEntries_id]
  cases bi <;> rfl

/-! ### Lookup lemmas for the association-list maps -/

theorem lookupValue_cons_self {k : String} {v : Value} {rest : List (String × Value)} :
    lookupValue ((k, v) :: rest) k = some v := by
  simp [lookupValue]

theorem lookupValue_cons_ne {k k' : String} {v : Value} {rest : List (String × Value)}
    (h : k ≠ k') : lookupValue ((k, v) :: rest) k' = lookupValue rest k' := by
  simp [lookupValue, h]

theorem lookupValue_not_mem {m : List (String × Value)} {k : String}
    (h : k ∉ m.map Prod.fst) : lookupValue m k = none := by
  induction m with
  | nil => rfl
  | cons p rest ih =>
    obtain ⟨k', v⟩ := p
    have hk : k' ≠ k := by
      intro he
      exact h (he ▸ List.mem_cons_self _ _)
    rw [show lookupValue ((k', v) :: rest) k = lookupValue rest k by simp [lookupValue, hk]]
    exact ih (fun hm => h (List.mem_cons_of_mem _ hm))

theorem lookupValue_mem {m : List (String × Value)} {k : String} {v : Value}
    (h : lookupValue m k = some v) : k ∈ m.map Prod.fst := by
  induction m with
  | nil => cases h
  | cons p rest ih =>
    obtain ⟨k', v'⟩ := p
    by_cases hk : k' = k
    · exact hk ▸ List.mem_cons_self _ _
    · rw [show lookupValue ((k', v') :: rest) k = lookupValue rest k by
        simp [lookupValue, hk]] at h
      exact List.mem_cons_of_mem _ (ih h)

theorem lookupValue_append (m1 m2 : List (String × Value)) (k : String) :
    lookupValue (m1 ++ m2) k =
      match lookupValue m1 k with
      | some v => some v
      | none => lookupValue m2 k := by
  induction m1 with
  | nil => rfl
  | cons p rest ih =>
    obtain ⟨k', v'⟩ := p
    by_cases hk : k' = k
    · simp [lookupValue, hk]
    · simp only [List.cons_append, lookupValue, if_neg hk]
      exact ih

theorem lookupValue_updateAssoc_self {m : List (String × Value)} {k : String}
    {dv : Value} (h : lookupValue m k = some dv) (v : Value) :
    lookupValue (updateAssoc m k v) k = some v := by
  induction m with
  | nil => cases h
  | cons p rest ih =>
    obtain ⟨k', v'⟩ := p
    by_cases hk : k' = k
    · simp [updateAssoc, lookupValue, hk]
    · rw [show lookupValue ((k', v') :: rest) k = lookupValue rest k by
        simp [lookupValue, hk]] at h
      simp only [updateAssoc, if_neg hk, lookupValue]
      exact ih h

theorem lookupValue_updateAssoc_ne {m : List (String × Value)} {k k' : String}
    (h : k' ≠ k) (v : Value) :
    lookupValue (updateAssoc m k v) k' = lookupValue m k' := by
  induction m with
  | nil => rfl
  | cons p rest ih =>
    obtain ⟨k0, v0⟩ := p
    by_cases hk : k0 = k
    · subst hk
      have h' : k0 ≠ k' := Ne.symm h
      rw [show updateAssoc ((k0, v0) :: rest) k0 v = (k0, v) :: rest by
        simp [updateAssoc]]
      rw [lookupValue_cons_ne h', lookupValue_cons_ne h']
    · simp only [updateAssoc, if_neg hk, lookupValue]
      by_cases hk' : k0 = k'
      · rw [if_pos hk', if_pos hk']
      · rw [if_neg hk', if_neg hk']
        exact ih

/-! ### The merge respects pointwise lookup -/

theorem lookupValue_mergeList :
    ∀ (src dm : List (String × Value)), (src.map Prod.fst).Nodup →
      ∀ k, lookupValue (mergeList dm src) k =
        match lookupValue dm k, lookupValue src k with
        | some dv, some sv => some (mergeValue dv sv)
        | none, some sv => some (deepCopyValue sv)
        | some dv, none => some dv
        | none, none => none := by
  intro src
  induction src with
  | nil =>
    intro dm _ k
    cases h : lookupValue dm k <;> simp [mergeList, h, lookupValue]
  | cons p rest ih =>
    intro dm hnd k
    obtain ⟨k0, sv0⟩ := p
    have hnd' : (rest.map Prod.fst).Nodup := (List.nodup_cons.mp (by simpa using hnd)).2
    have hk0 : k0 ∉ rest.map Prod.fst := (List.nodup_cons.mp (by simpa using hnd)).1
    by_cases hk : k = k0
    · subst hk
      have hsrc : lookupValue ((k, sv0) :: rest) k = some sv0 := lookupValue_cons_self
      have hrest : lookupValue rest k = none := lookupValue_not_mem hk0
      rw [hsrc]
      cases hdm : lookupValue dm k with
      | some dv =>
        simp only [mergeList, hdm]
        rw [ih _ hnd' k, hrest, lookupValue_updateAssoc_self hdm]
      | none =>
        simp only [mergeList, hdm]
        rw [ih _ hnd' k, hrest, lookupValue_append]
        rw [hdm]
        simp [lookupValue]
    · have hsrc : lookupValue ((k0, sv0) :: rest) k = lookupValue rest k :=
        lookupValue_cons_ne (Ne.symm hk)
      rw [hsrc]
      cases hdm0 : lookupValue dm k0 with
      | some dv =>
        simp only [mergeList, hdm0]
        rw [ih _ hnd' k, lookupValue_updateAssoc_ne hk]
      | none =>
        simp only [mergeList, hdm0]
        rw [ih _ hnd' k, lookupValue_append]
        have : lookupValue [(k0, deepCopyValue sv0)] k = none := by
          simp [lookupValue, Ne.symm hk]
        rw [this]
        cases lookupValue dm k <;> rfl

/-! ### Claim theorems for the value merger -/

/-- C5. Merging a present overlay over present defaults takes the overlay's
base-image descriptor wholesale if present, else the defaults' descriptor
wholesale; the values start from a (deep copy of the) defaults' values and
merge the overlay's values key by key, recursing when both sides hold a
nested mapping and otherwise replacing the defaults' value with a deep copy
of the overlay's value. -/
theorem Merge_overlay_spec (ov df : ImageConfig)
    (hov : (ov.Values.map Prod.fst).Nodup) :
    ∃ mc, Merge (some ov) (some df) = some mc ∧
      mc.BaseImage = ov.BaseImage.or df.BaseImage ∧
      (∀ k, lookupValue mc.Values k =
        match lookupValue df.Values k, lookupValue ov.Values k with
        | some dv, some sv => some (mergeValue dv sv)
        | none, some sv => some (deepCopyValue sv)
        | some dv, none => some dv
        | none, none => none) ∧
      (∀ dm sm, mergeValue (Value.vmap dm) (Value.vmap sm) = Value.vmap (mergeList dm sm)) ∧
      (∀ dv sv, ((∀ m, dv ≠ Value.vmap m) ∨ (∀ m, sv ≠ Value.vmap m)) →
        mergeValue dv sv = deepCopyValue sv) := by
  refine ⟨_, rfl, ?_, ?_, ?_, ?_⟩
  · show (match ov.BaseImage with
      | some b => some { Name := b.Name, Source := b.Source }
      | none => match df.BaseImage with
        | some b => some { Name := b.Name, Source := b.Source }
        | none => none) = ov.BaseImage.or df.BaseImage
    cases ov.BaseImage <;> cases df.BaseImage <;> rfl
  · intro k
    show lookupValue (mergeList (deepCopyEntries df.Values) ov.Values) k = _
    rw [deepCopyEntries_id]
    exact lookupValue_mergeList ov.Values df.Values hov k
  · intro dm sm
    rfl
  · intro dv sv h
    cases dv <;> cases sv <;> try rfl
    rcases h with h | h
    · exact absurd rfl (h _)
    · exact absurd rfl (h _)

/-- The overlay of the spec's nested-merge example. -/
def ovNested : ImageConfig :=
  ⟨none, [("nested", Value.vmap [("a", Value.other "1"), ("b", Value.other "2")])]⟩

/-- The defaults of the spec's nested-merge example. -/
def dfNested : ImageConfig :=
  ⟨none, [("nested", Value.vmap [("a", Value.other "0"), ("c", Value.other "3")])]⟩

theorem Merge_overlay_spec_witness :
    ∃ mc, Merge (some ovNested) (some dfNested) = some mc ∧
      mc.BaseImage = ovNested.BaseImage.or dfNested.BaseImage ∧
      (∀ k, lookupValue mc.Values k =
        match lookupValue dfNested.Values k, lookupValue ovNested.Values k with
        | some dv, some sv => some (mergeValue dv sv)
        | none, some sv => some (deepCopyValue sv)
        | some dv, none => some dv
        | none, none => none) ∧
      (∀ dm sm, mergeValue (Value.vmap dm) (Value.vmap sm) = Value.vmap (mergeList dm sm)) ∧
      (∀ dv sv, ((∀ m, dv ≠ Value.vmap m) ∨ (∀ m, sv ≠ Value.vmap m)) →
        mergeValue dv sv = deepCopyValue sv) :=
  Merge_overlay_spec ovNested dfNested (by decide)

/-- The spec's nested-mapping example evaluated: merging
`nested: (a 1, b 2)` over defaults `nested: (a 0, c 3)` yields
`nested: (a 1, c 3, b 2)` — `a` overridden, `c` kept, `b` added. -/
theorem Merge_nested_example :
    (Merge (some ovNested) (some dfNested)).map (fun mc => lookupValue mc.Values "nested") =
      some (some (Value.vmap
        [("a", Value.other "1"), ("c", Value.other "3"), ("b", Value.other "2")])) := by
  decide

/-- C6 (amended). Merging with an absent side returns a deep copy of the
present side; with both sides absent the source returns absent (Go `nil`),
not an empty configuration. -/
theorem Merge_absent (ic df : ImageConfig) :
    Merge (some ic) none = some ic ∧
    Merge none (some df) = some df ∧
    Merge none none = none := by
  refine ⟨?_, ?_, rfl⟩
  · show deepCopyIC (some ic) = some ic
    exact deepCopyIC_some ic
  · show deepCopyIC (some df) = some df
    exact deepCopyIC_some df

/-- C6 counterexample: with both inputs absent, `Merge` returns absent (the
Go function returns `nil`), not an empty resolved configuration. -/
theorem Merge_both_absent_counterexample :
    Merge none none = none ∧
    Merge none none ≠ some ⟨none, []⟩ :=
  ⟨rfl, by decide⟩

/-! ### Emission lemmas for `fromImage` -/

theorem lit_split {a b : String} (c : String) (hab : a ++ b = c) (x : String) :
    a ++ (b ++ x) = c ++ x := by
  rw [← String.append_assoc, hab]

theorem emitFromImage_public (d : Data) (n : String) :
    emitFromImage d n "dockerhub" = ("FROM " ++ n, d) := by
  simp [emitFromImage]

theorem emitFromImage_arg (d : Data) (reg n s : String)
    (hreg : lookupValue d.Values "registry" = some (Value.str reg))
    (hflag : d.rootPathIncluded = false) (hs : s ≠ "dockerhub") :
    emitFromImage d n s =
      ("ARG REGISTRY=" ++ reg ++ "\nFROM ${REGISTRY}/" ++ n,
       { d with rootPathIncluded := true }) := by
  simp only [emitFromImage, if_neg hs, hflag, Bool.false_eq_true, if_false, hreg]
  rw [String.append_assoc ("ARG REGISTRY=" ++ reg) "\nFROM ${REGISTRY}/" n]
  rw [String.append_assoc ("ARG REGISTRY=" ++ reg) "\nFROM " ("${REGISTRY}/" ++ n)]
  rw [lit_split "\nFROM ${REGISTRY}/" (by decide) n]

theorem emitFromImage_flagSet (d : Data) (n s : String)
    (hflag : d.rootPathIncluded = true) (hs : s ≠ "dockerhub") :
    emitFromImage d n s = ("FROM ${REGISTRY}/" ++ n, d) := by
  simp only [emitFromImage, if_neg hs, hflag, if_true]
  rw [lit_split "FROM ${REGISTRY}/" (by decide) n]

theorem emitFromImage_noRegistry (d : Data) (n s : String)
    (hflag : d.rootPathIncluded = false) (hs : s ≠ "dockerhub")
    (hreg : lookupValue d.Values "registry" = none) :
    emitFromImage d n s =
      ("# ERROR: registry not set in config\nFROM ${REGISTRY}/" ++ n, d) := by
  simp only [emitFromImage, if_neg hs, hflag, Bool.false_eq_true, if_false, hreg]
  rw [lit_split "# ERROR: registry not set in config\nFROM ${REGISTRY}/" (by decide) n]

theorem emitFromImage_badRegistry (d : Data) (n s : String) (v : Value)
    (hflag : d.rootPathIncluded = false) (hs : s ≠ "dockerhub")
    (hreg : lookupValue d.Values "registry" = some v) (hv : ∀ r, v ≠ Value.str r) :
    emitFromImage d n s =
      ("# ERROR: registry is not a string\nFROM ${REGISTRY}/" ++ n, d) := by
  simp only [emitFromImage, if_neg hs, hflag, Bool.false_eq_true, if_false, hreg]
  cases v with
  | str r => exact absurd rfl (hv r)
  | base b =>
    rw [lit_split "# ERROR: registry is not a string\nFROM ${REGISTRY}/" (by decide) n]
  | vmap m =>
    rw [lit_split "# ERROR: registry is not a string\nFROM ${REGISTRY}/" (by decide) n]
  | vseq l =>
    rw [lit_split "# ERROR: registry is not a string\nFROM ${REGISTRY}/" (by decide) n]
  | other t =>
    rw [lit_split "# ERROR: registry is not a string\nFROM ${REGISTRY}/" (by decide) n]

/-! ### Claim theorems for origin resolution -/

/-- C4. In a context whose values map `registry` to a string and whose flag
is unset, the first non-public resolution emits `ARG REGISTRY=<value>`
immediately followed by `FROM $\x7bREGISTRY\x7d/<name>` and sets the flag; any
non-public resolution in the flag-set context emits only the origin line and
leaves the context unchanged, so at most one `ARG` declaration is emitted per
context. -/
theorem fromImage_registry_arg_once
    (d : Data) (reg : String)
    (hreg : lookupValue d.Values "registry" = some (Value.str reg))
    (hflag : d.rootPathIncluded = false)
    (fuel : Nat) (ref : Value) (n s : String)
    (hres : resolveImageRef d.Values fuel ref = some (n, s))
    (hs : s ≠ "dockerhub") :
    fromImage d fuel ref =
      some ("ARG REGISTRY=" ++ reg ++ "\nFROM ${REGISTRY}/" ++ n,
        { d with rootPathIncluded := true }) ∧
    ∀ (fuel2 : Nat) (ref2 : Value) (n2 s2 : String),
      resolveImageRef d.Values fuel2 ref2 = some (n2, s2) → s2 ≠ "dockerhub" →
      fromImage { d with rootPathIncluded := true } fuel2 ref2 =
        some ("FROM ${REGISTRY}/" ++ n2, { d with rootPathIncluded := true }) := by
  constructor
  · simp only [fromImage, hres]
    rw [emitFromImage_arg d reg n s hreg hflag hs]
  · intro fuel2 ref2 n2 s2 hres2 hs2
    have hval : ({ d with rootPathIncluded := true } : Data).Values = d.Values := rfl
    simp only [fromImage, hval, hres2]
    rw [emitFromImage_flagSet { d with rootPathIncluded := true } n2 s2 rfl hs2]

theorem fromImage_registry_arg_once_witness :
    fromImage ⟨[("registry", Value.str "my-registry.io")], false, ""⟩ 1
        (Value.base ⟨"myimage", "custom"⟩) =
      some ("ARG REGISTRY=my-registry.io\nFROM ${REGISTRY}/myimage",
        ⟨[("registry", Value.str "my-registry.io")], true, ""⟩) ∧
    fromImage ⟨[("registry", Value.str "my-registry.io")], true, ""⟩ 1
        (Value.base ⟨"anotherimage", "custom"⟩) =
      some ("FROM ${REGISTRY}/anotherimage",
        ⟨[("registry", Value.str "my-registry.io")], true, ""⟩) := by
  have h := fromImage_registry_arg_once
    ⟨[("registry", Value.str "my-registry.io")], false, ""⟩ "my-registry.io"
    rfl rfl 1 (Value.base ⟨"myimage", "custom"⟩) "myimage" "custom" rfl (by decide)
  exact ⟨h.1.trans (by decide),
    (h.2 1 (Value.base ⟨"anotherimage", "custom"⟩) "anotherimage" "custom" rfl
      (by decide)).trans (by decide)⟩

/-- C7 counterexample: the spec's example descriptor `(name ubuntu:20.04)`
carries no origin tag (`source` is empty, not the public tag), so the code
routes it through the registry and does not resolve it to
`FROM ubuntu:20.04`. -/
theorem fromImage_public_counterexample :
    fromImage ⟨[("registry", Value.str "my-registry.io")], false, ""⟩ 1
        (Value.base ⟨"ubuntu:20.04", ""⟩) ≠
      some ("FROM ubuntu:20.04",
        ⟨[("registry", Value.str "my-registry.io")], false, ""⟩) ∧
    fromImage ⟨[("registry", Value.str "my-registry.io")], false, ""⟩ 1
        (Value.base ⟨"ubuntu:20.04", ""⟩) =
      some ("ARG REGISTRY=my-registry.io\nFROM ${REGISTRY}/ubuntu:20.04",
        ⟨[("registry", Value.str "my-registry.io")], true, ""⟩) := by
  constructor
  · decide
  · decide

/-- C7 (amended). A reference resolving to a descriptor whose origin tag is
the public tag `source = "dockerhub"` (e.g. `(name ubuntu:20.04,
source dockerhub)`) yields exactly `FROM <name>` — no registry indirection,
no `ARG` declaration — and leaves the context, in particular its flag,
unchanged, regardless of call order. -/
theorem fromImage_public (d : Data) (fuel : Nat) (ref : Value) (n : String)
    (hres : resolveImageRef d.Values fuel ref = some (n, "dockerhub")) :
    fromImage d fuel ref = some ("FROM " ++ n, d) := by
  simp only [fromImage, hres]
  rw [emitFromImage_public d n]

theorem fromImage_public_witness :
    fromImage ⟨[("registry", Value.str "my-registry.io")], true, ""⟩ 1
        (Value.base ⟨"ubuntu:20.04", "dockerhub"⟩) =
      some ("FROM ubuntu:20.04",
        ⟨[("registry", Value.str "my-registry.io")], true, ""⟩) :=
  (fromImage_public ⟨[("registry", Value.str "my-registry.io")], true, ""⟩ 1
    (Value.base ⟨"ubuntu:20.04", "dockerhub"⟩) "ubuntu:20.04" rfl).trans (by decide)

/-- C8. In a fresh (flag-unset) context, resolving a non-public reference
with the registry value absent yields the inline annotation
`# ERROR: registry not set in config` followed by the unresolved origin line,
and with a present but non-string registry value the distinct annotation
`# ERROR: registry is not a string` followed by the same line; both cases
return text (no abort), with the context unchanged. -/
theorem fromImage_registry_errors
    (d : Data) (fuel : Nat) (ref : Value) (n s : String)
    (hflag : d.rootPathIncluded = false)
    (hres : resolveImageRef d.Values fuel ref = some (n, s))
    (hs : s ≠ "dockerhub") :
    (lookupValue d.Values "registry" = none →
      fromImage d fuel ref =
        some ("# ERROR: registry not set in config\nFROM ${REGISTRY}/" ++ n, d)) ∧
    (∀ v, lookupValue d.Values "registry" = some v → (∀ r, v ≠ Value.str r) →
      fromImage d fuel ref =
        some ("# ERROR: registry is not a string\nFROM ${REGISTRY}/" ++ n, d)) := by
  constructor
  · intro hreg
    simp only [fromImage, hres]
    rw [emitFromImage_noRegistry d n s hflag hs hreg]
  · intro v hreg hv
    simp only [fromImage, hres]
    rw [emitFromImage_badRegistry d n s v hflag hs hreg hv]

theorem fromImage_registry_errors_witness :
    fromImage ⟨[], false, ""⟩ 1 (Value.base ⟨"myimage", "custom"⟩) =
      some ("# ERROR: registry not set in config\nFROM ${REGISTRY}/myimage",
        ⟨[], false, ""⟩) ∧
    fromImage ⟨[("registry", Value.other "12345")], false, ""⟩ 1
        (Value.base ⟨"myimage", "custom"⟩) =
      some ("# ERROR: registry is not a string\nFROM ${REGISTRY}/myimage",
        ⟨[("registry", Value.other "12345")], false, ""⟩) :=
  ⟨((fromImage_registry_errors ⟨[], false, ""⟩ 1 (Value.base ⟨"myimage", "custom"⟩)
      "myimage" "custom" rfl rfl (by decide)).1 rfl).trans (by decide),
   ((fromImage_registry_errors ⟨[("registry", Value.other "12345")], false, ""⟩ 1
      (Value.base ⟨"myimage", "custom"⟩) "myimage" "custom" rfl rfl (by decide)).2
      (Value.other "12345") rfl (fun r h => Value.noConfusion h)).trans (by decide)⟩

/-- C10. When a non-public resolution takes either registry error branch, the
returned context is exactly the input context — in particular the
registry-declaration flag stays unset — and a later non-public resolution in
a flag-unset context whose registry value is a string still emits the
`ARG REGISTRY` declaration line. -/
theorem fromImage_error_state_unchanged
    (d : Data) (fuel : Nat) (ref : Value) (n s : String)
    (hflag : d.rootPathIncluded = false)
    (hres : resolveImageRef d.Values fuel ref = some (n, s))
    (hs : s ≠ "dockerhub")
    (herr : lookupValue d.Values "registry" = none ∨
      ∃ v, lookupValue d.Values "registry" = some v ∧ ∀ r, v ≠ Value.str r) :
    (∃ out, fromImage d fuel ref = some (out, d)) ∧
    ∀ (d2 : Data) (reg : String) (fuel2 : Nat) (ref2 : Value) (n2 s2 : String),
      d2.rootPathIncluded = false →
      lookupValue d2.Values "registry" = some (Value.str reg) →
      resolveImageRef d2.Values fuel2 ref2 = some (n2, s2) → s2 ≠ "dockerhub" →
      fromImage d2 fuel2 ref2 =
        some ("ARG REGISTRY=" ++ reg ++ "\nFROM ${REGISTRY}/" ++ n2,
          { d2 with rootPathIncluded := true }) := by
  constructor
  · rcases herr with hreg | ⟨v, hreg, hv⟩
    · refine ⟨"# ERROR: registry not set in config\nFROM ${REGISTRY}/" ++ n, ?_⟩
      simp only [fromImage, hres]
      rw [emitFromImage_noRegistry d n s hflag hs hreg]
    · refine ⟨"# ERROR: registry is not a string\nFROM ${REGISTRY}/" ++ n, ?_⟩
      simp only [fromImage, hres]
      rw [emitFromImage_badRegistry d n s v hflag hs hreg hv]
  · intro d2 reg fuel2 ref2 n2 s2 hflag2 hreg2 hres2 hs2
    simp only [fromImage, hres2]
    rw [emitFromImage_arg d2 reg n2 s2 hreg2 hflag2 hs2]

theorem fromImage_error_state_unchanged_witness :
    ((∃ out, fromImage ⟨[], false, ""⟩ 1 (Value.base ⟨"myimage", "custom"⟩) =
        some (out, ⟨[], false, ""⟩)) ∧
      ∀ (d2 : Data) (reg : String) (fuel2 : Nat) (ref2 : Value) (n2 s2 : String),
        d2.rootPathIncluded = false →
        lookupValue d2.Values "registry" = some (Value.str reg) →
        resolveImageRef d2.Values fuel2 ref2 = some (n2, s2) → s2 ≠ "dockerhub" →
        fromImage d2 fuel2 ref2 =
          some ("ARG REGISTRY=" ++ reg ++ "\nFROM ${REGISTRY}/" ++ n2,
            { d2 with rootPathIncluded := true })) :=
  fromImage_error_state_unchanged ⟨[], false, ""⟩ 1 (Value.base ⟨"myimage", "custom"⟩)
    "myimage" "custom" rfl rfl (by decide) (Or.inl rfl)

/-! ### Termination of symbolic reference resolution -/

theorem resolveImageRef_mono (values : List (String × Value)) :
    ∀ (fuel : Nat) (v : Value) (r : String × String),
      resolveImageRef values fuel v = some r →
      resolveImageRef values (fuel + 1) v = some r := by
  intro fuel
  induction fuel with
  | zero =>
    intro v r h
    simp [resolveImageRef] at h
  | succ f ih =>
    intro v r h
    cases v with
    | str s =>
      cases hl : lookupValue values s with
      | some v' =>
        rw [show resolveImageRef values (f + 1) (Value.str s) =
            resolveImageRef values f v' by simp [resolveImageRef, hl]] at h
        rw [show resolveImageRef values (f + 1 + 1) (Value.str s) =
            resolveImageRef values (f + 1) v' by simp [resolveImageRef, hl]]
        exact ih v' r h
      | none =>
        rw [show resolveImageRef values (f + 1) (Value.str s) = some (s, "") by
          simp [resolveImageRef, hl]] at h
        rw [show resolveImageRef values (f + 1 + 1) (Value.str s) = some (s, "") by
          simp [resolveImageRef, hl]]
        exact h
    | base b => simpa [resolveImageRef] using h
    | vmap m => simpa [resolveImageRef] using h
    | vseq l => simpa [resolveImageRef] using h
    | other t => simpa [resolveImageRef] using h

theorem resolveImageRef_mono_le (values : List (String × Value))
    {fuel fuel2 : Nat} (hle : fuel ≤ fuel2) {v : Value} {r : String × String}
    (hres : resolveImageRef values fuel v = some r) :
    resolveImageRef values fuel2 v = some r := by
  induction hle with
  | refl => exact hres
  | step _ ih => exact resolveImageRef_mono values _ _ _ ih

theorem resolvesTo_of_resolve (values : List (String × Value)) :
    ∀ (fuel : Nat) (v : Value) (r : String × String),
      resolveImageRef values fuel v = some r → ResolvesTo values v r := by
  intro fuel
  induction fuel with
  | zero =>
    intro v r h
    simp [resolveImageRef] at h
  | succ f ih =>
    intro v r h
    cases v with
    | str s =>
      cases hl : lookupValue values s with
      | some v' =>
        rw [show resolveImageRef values (f + 1) (Value.str s) =
            resolveImageRef values f v' by simp [resolveImageRef, hl]] at h
        exact ResolvesTo.strFound hl (ih v' r h)
      | none =>
        rw [show resolveImageRef values (f + 1) (Value.str s) = some (s, "") by
          simp [resolveImageRef, hl]] at h
        cases h
        exact ResolvesTo.strFree hl
    | base b =>
      rw [show resolveImageRef values (f + 1) (Value.base b) =
          some (b.Name, b.Source) by simp [resolveImageRef]] at h
      cases h
      exact ResolvesTo.base b
    | vmap m =>
      rw [show resolveImageRef values (f + 1) (Value.vmap m) =
          some (mapName m, mapSource m) by simp [resolveImageRef]] at h
      cases h
      exact ResolvesTo.vmap m
    | vseq l =>
      rw [show resolveImageRef values (f + 1) (Value.vseq l) =
          some (displayValue (Value.vseq l), "") by simp [resolveImageRef]] at h
      cases h
      exact ResolvesTo.vseq l
    | other t =>
      rw [show resolveImageRef values (f + 1) (Value.other t) =
          some (t, "") by simp [resolveImageRef, displayValue]] at h
      cases h
      exact ResolvesTo.other t

theorem resolve_str_succeeds (values : List (String × Value))
    (hacyc : ∀ k, ¬ Relation.TransGen (stepsTo values) k k) :
    ∀ (n : Nat) (s : String) (seen : List String),
      seen.Nodup →
      (∀ t ∈ seen, t ∈ values.map Prod.fst) →
      (∀ t ∈ seen, Relation.TransGen (stepsTo values) t s) →
      (values.map Prod.fst).dedup.length < n + seen.length →
      ∃ fuel r, resolveImageRef values fuel (Value.str s) = some r := by
  intro n
  induction n with
  | zero =>
    intro s seen hnd hsub _ hguard
    exfalso
    have hlen := length_le_dedup hnd hsub
    omega
  | succ n ih =>
    intro s seen hnd hsub hreach hguard
    cases hl : lookupValue values s with
    | none => exact ⟨1, (s, ""), by simp [resolveImageRef, hl]⟩
    | some v =>
      have hskeys : s ∈ values.map Prod.fst := lookupValue_mem hl
      have hsnot : s ∉ seen := fun hmem => hacyc s (hreach s hmem)
      cases v with
      | str s' =>
        have hstep : stepsTo values s s' := hl
        obtain ⟨fuel, r, hres⟩ := ih s' (s :: seen)
          (List.nodup_cons.mpr ⟨hsnot, hnd⟩)
          (by
            intro t ht
            rcases List.mem_cons.mp ht with rfl | ht'
            · exact hskeys
            · exact hsub t ht')
          (by
            intro t ht
            rcases List.mem_cons.mp ht with rfl | ht'
            · exact Relation.TransGen.single hstep
            · exact (hreach t ht').tail hstep)
          (by simp only [List.length_cons]; omega)
        refine ⟨fuel + 1, r, ?_⟩
        rw [show resolveImageRef values (fuel + 1) (Value.str s) =
            resolveImageRef values fuel (Value.str s') by simp [resolveImageRef, hl]]
        exact hres
      | base b => exact ⟨2, (b.Name, b.Source), by simp [resolveImageRef, hl]⟩
      | vmap m => exact ⟨2, (mapName m, mapSource m), by simp [resolveImageRef, hl]⟩
      | vseq l =>
        exact ⟨2, (displayValue (Value.vseq l), ""), by simp [resolveImageRef, hl]⟩
      | other t => exact ⟨2, (t, ""), by simp [resolveImageRef, hl, displayValue]⟩

/-- C9. When the string-to-string indirection chains of a context are
acyclic, reference resolution terminates: some fuel suffices, the result is
stable for all larger fuel, it is the terminal descriptor or literal name of
the chain in the sense of `ResolvesTo`, and `fromImage` returns the emission
of that terminal result. -/
theorem fromImage_terminates
    (values : List (String × Value))
    (hacyc : ∀ k, ¬ Relation.TransGen (stepsTo values) k k) (ref : Value) :
    ∃ r fuel, resolveImageRef values fuel ref = some r ∧
      (∀ fuel2, fuel ≤ fuel2 → resolveImageRef values fuel2 ref = some r) ∧
      ResolvesTo values ref r ∧
      (∀ d : Data, d.Values = values →
        fromImage d fuel ref = some (emitFromImage d r.1 r.2)) := by
  have hexists : ∃ fuel r, resolveImageRef values fuel ref = some r := by
    cases ref with
    | str s =>
      exact resolve_str_succeeds values hacyc ((values.map Prod.fst).dedup.length + 1)
        s [] List.nodup_nil (by intro t ht; cases ht) (by intro t ht; cases ht)
        (by simp)
    | base b => exact ⟨1, (b.Name, b.Source), by simp [resolveImageRef]⟩
    | vmap m => exact ⟨1, (mapName m, mapSource m), by simp [resolveImageRef]⟩
    | vseq l => exact ⟨1, (displayValue (Value.vseq l), ""), by simp [resolveImageRef]⟩
    | other t => exact ⟨1, (t, ""), by simp [resolveImageRef, displayValue]⟩
  obtain ⟨fuel, r, hres⟩ := hexists
  obtain ⟨rn, rs⟩ := r
  refine ⟨(rn, rs), fuel, hres, ?_, resolvesTo_of_resolve values fuel ref (rn, rs) hres, ?_⟩
  · intro fuel2 hle
    exact resolveImageRef_mono_le values hle hres
  · intro d hd
    simp only [fromImage, hd, hres]

/-- An acyclic two-step indirection chain: key `a` names key `b`, which holds
a terminal descriptor. -/
def valsChain : List (String × Value) :=
  [("a", Value.str "b"), ("b", Value.base ⟨"img", "dockerhub"⟩)]

theorem valsChain_acyclic : ∀ k, ¬ Relation.TransGen (stepsTo valsChain) k k := by
  have hstep : ∀ x y, stepsTo valsChain x y → x = "a" ∧ y = "b" := by
    intro x y h
    simp only [stepsTo, valsChain, lookupValue] at h
    by_cases hx : "a" = x
    · rw [if_pos hx] at h
      exact ⟨hx.symm, (Value.str.inj (Option.some_inj.mp h)).symm⟩
    · rw [if_neg hx] at h
      by_cases hx2 : "b" = x
      · rw [if_pos hx2] at h
        exact absurd (Option.some_inj.mp h) (fun hh => Value.noConfusion hh)
      · rw [if_neg hx2] at h
        cases h
  have htr : ∀ x y, Relation.TransGen (stepsTo valsChain) x y → x = "a" ∧ y = "b" := by
    intro x y h
    induction h with
    | single h' => exact hstep _ _ h'
    | tail _ hstep2 ih =>
      obtain ⟨hx, hb⟩ := ih
      obtain ⟨hb2, _⟩ := hstep _ _ hstep2
      rw [hb] at hb2
      exact absurd hb2 (by decide)
  intro k hk
  obtain ⟨h1, h2⟩ := htr k k hk
  rw [h1] at h2
  exact absurd h2 (by decide)

theorem fromImage_terminates_witness :
    ∃ r fuel, resolveImageRef valsChain fuel (Value.str "a") = some r ∧
      (∀ fuel2, fuel ≤ fuel2 → resolveImageRef valsChain fuel2 (Value.str "a") = some r) ∧
      ResolvesTo valsChain (Value.str "a") r ∧
      (∀ d : Data, d.Values = valsChain →
        fromImage d fuel (Value.str "a") = some (emitFromImage d r.1 r.2)) :=
  fromImage_terminates valsChain valsChain_acyclic (Value.str "a")

/-! ## Dependency extraction (parseDockerfileDependencies)

The three RE2 patterns of workflow.go, embedded as deterministic character
scanners.  RE2's `\s` is the class tab, newline, form feed, carriage return,
space.  In each pattern the greedy submatches are deterministic: a
`[^:\s]+`/`[^\s]+` capture is a maximal run (no shorter run can be followed
by the required delimiter), and a greedy `.*` before a literal selects the
last position at which the rest of the pattern matches. -/

/-- RE2 `\s`. -/
def isWSChar (c : Char) : Bool :=
  c = ' ' || c = '\t' || c = '\n' || c = '\x0c' || c = '\r'

/-- Strips an expected literal prefix, returning the remainder. -/
def stripLit : List Char → List Char → Option (List Char)
  | [], l => some l
  | _ :: _, [] => none
  | p :: ps, c :: cs => if c = p then stripLit ps cs else none

/-- `strings.Split(content, "\n")` on the character list. -/
def splitLinesChars : List Char → List (List Char)
  | [] => [[]]
  | c :: rest =>
    if c = '\n' then [] :: splitLinesChars rest
    else
      match splitLinesChars rest with
      | [] => [[c]]
      | l :: ls => (c :: l) :: ls

/-- The capture `([^:\s]+):([^\s]+)` after the registry placeholder, tried
at the head of `l`; shared by the anchored origin pattern and the unanchored
reference pattern. -/
def parseRegistryAt (l : List Char) : Option (String × String) :=
  match stripLit "${REGISTRY}/".toList l with
  | none => none
  | some r3 =>
    let img := r3.takeWhile (fun c => !(c = ':') && !isWSChar c)
    if img.isEmpty then none
    else
      match r3.drop img.length with
      | ':' :: r5 =>
        let ver := r5.takeWhile (fun c => !isWSChar c)
        if ver.isEmpty then none else some (⟨img⟩, ⟨ver⟩)
      | _ => none

/-- `^\s*FROM\s+\$\x7bREGISTRY\x7d/([^:\s]+):([^\s]+)` of workflow.go. -/
def matchFromDep (line : List Char) : Option (String × String) :=
  match stripLit "FROM".toList (line.dropWhile isWSChar) with
  | none => none
  | some r1 =>
    match r1 with
    | [] => none
    | c :: _ =>
      if isWSChar c then parseRegistryAt (r1.dropWhile isWSChar)
      else none

/-- The attempt of `AS\s+([^\s]+)` at the head of a suffix. -/
def stageCaptureAt (l : List Char) : Option (List Char) :=
  match stripLit "AS".toList l with
  | none => none
  | some rest =>
    match rest with
    | [] => none
    | c :: _ =>
      if isWSChar c then
        let cap := (rest.dropWhile isWSChar).takeWhile (fun c => !isWSChar c)
        if cap.isEmpty then none else some cap
      else none

/-- The backtracking search of greedy `.*\s+AS\s+([^\s]+)` over the text
after `FROM`: the last position at index ≥ 2 whose preceding character is
whitespace and where `AS\s+([^\s]+)` matches wins. -/
def lastStageAlias (prev : Char) (pos : Nat) : List Char → Option (List Char)
  | [] => none
  | c :: rest =>
    match lastStageAlias c (pos + 1) rest with
    | some cap => some cap
    | none =>
      if 2 ≤ pos && isWSChar prev then stageCaptureAt (c :: rest) else none

/-- `^\s*FROM\s+.*\s+AS\s+([^\s]+)` of workflow.go: the declaration of an
internal build-stage alias. -/
def matchStageAlias (line : List Char) : Option String :=
  match stripLit "FROM".toList (line.dropWhile isWSChar) with
  | none => none
  | some r =>
    match r with
    | [] => none
    | c :: _ =>
      if isWSChar c then (lastStageAlias 'F' 0 r).map (fun cap => (⟨cap⟩ : String))
      else none

/-- The backtracking search of greedy `.*--from=([^\s]+)`: the last
occurrence of `--from=` followed by a nonempty non-whitespace run wins. -/
def lastFromEq : List Char → Option (List Char)
  | [] => none
  | c :: rest =>
    match lastFromEq rest with
    | some cap => some cap
    | none =>
      match stripLit "--from=".toList (c :: rest) with
      | none => none
      | some tail =>
        let cap := tail.takeWhile (fun c => !isWSChar c)
        if cap.isEmpty then none else some cap

/-- `^\s*COPY\s+.*--from=([^\s]+)` of workflow.go. -/
def matchCopyFrom (line : List Char) : Option String :=
  match stripLit "COPY".toList (line.dropWhile isWSChar) with
  | none => none
  | some r =>
    match r with
    | [] => none
    | c :: _ =>
      if isWSChar c then (lastFromEq r).map (fun cap => (⟨cap⟩ : String))
      else none

/-- The unanchored `\$\x7bREGISTRY\x7d/([^:\s]+):([^\s]+)` applied to a
`--from=` reference: leftmost match. -/
def findRegistryRef : List Char → Option (String × String)
  | [] => none
  | c :: rest =>
    match parseRegistryAt (c :: rest) with
    | some p => some p
    | none => findRegistryRef rest

/-- Insertion into the deduplicating set `depsMap` of the source. -/
def insertKey (acc : List String) (k : String) : List String :=
  if k ∈ acc then acc else acc ++ [k]

/-- Lexicographic comparison of character lists by code point, the order of
`sort.Strings` (UTF-8 byte order coincides with code-point order). -/
def leb : List Char → List Char → Bool
  | [], _ => true
  | _ :: _, [] => false
  | c :: cs, d :: ds => if c < d then true else if d < c then false else leb cs ds

/-- Sorted insertion with respect to `leb`. -/
def insertString (s : String) : List String → List String
  | [] => [s]
  | t :: rest => if leb s.data t.data then s :: t :: rest else t :: insertString s rest

/-- `sort.Strings`: lexicographic insertion sort. -/
def sortStrings : List String → List String
  | [] => []
  | s :: rest => insertString s (sortStrings rest)

/-- The origin-pattern check of the source's second loop. -/
def fromStep (acc : List String) (line : List Char) : List String :=
  match matchFromDep line with
  | some (img, ver) => insertKey acc (img ++ ":" ++ ver)
  | none => acc

/-- The staging-directive check of the source's second loop: a reference
naming a known internal stage alias is skipped, otherwise the reference is
matched against the registry-placeholder form. -/
def copyStep (stageNames : List String) (acc : List String) (line : List Char) :
    List String :=
  match matchCopyFrom line with
  | some ref =>
    if ref ∈ stageNames then acc
    else
      match findRegistryRef ref.toList with
      | some (img, ver) => insertKey acc (img ++ ":" ++ ver)
      | none => acc
  | none => acc

/-- The two pattern checks the source's second loop applies to one line, in
source order. -/
def depsOfLine (stageNames : List String) (acc : List String) (line : List Char) :
    List String :=
  copyStep stageNames (fromStep acc line) line

/-- The internal stage aliases declared by the file's own origin lines. -/
def stageNamesOf (content : List Char) : List String :=
  (splitLinesChars content).filterMap matchStageAlias

/-- `parseDockerfileDependencies` of workflow.go, over the file text (the
enclosing `os.ReadFile` is I/O; its failure aborts before this logic runs).
Collects the deduplicated `<image>:<version>` keys and sorts them. -/
def parseDockerfileDependencies (content : String) : List String :=
  let lines := splitLinesChars content.toList
  let stageNames := stageNamesOf content.toList
  sortStrings (lines.foldl (depsOfLine stageNames) [])

/-- A key that one line of the file contributes, per the source patterns. -/
def lineProduces (stageNames : List String) (line : List Char) (k : String) : Prop :=
  (∃ img ver, matchFromDep line = some (img, ver) ∧ k = img ++ ":" ++ ver) ∨
  (∃ ref img ver, matchCopyFrom line = some ref ∧ ref ∉ stageNames ∧
    findRegistryRef ref.toList = some (img, ver) ∧ k = img ++ ":" ++ ver)

/-- The set of dependency keys of a build file: origin lines in the
registry-placeholder form, plus staging-directive references in that form
that do not name a locally declared stage alias. -/
def isDependencyKey (content : String) (k : String) : Prop :=
  ∃ line ∈ splitLinesChars content.toList,
    lineProduces (stageNamesOf content.toList) line k

/-! ### Membership and shape lemmas for the extractor -/

theorem leb_iff_not_lex :
    ∀ a b : List Char, leb a b = true ↔ ¬ List.Lex (· < ·) b a := by
  intro a
  induction a with
  | nil =>
    intro b
    constructor
    · intro _ h
      cases h
    · intro _
      rfl
  | cons c cs ih =>
    intro b
    cases b with
    | nil =>
      constructor
      · intro h
        cases h
      · intro h
        exact absurd List.Lex.nil h
    | cons d ds =>
      simp only [leb]
      by_cases hcd : c < d
      · rw [if_pos hcd]
        constructor
        · intro _ h
          cases h with
          | cons h' => exact lt_irrefl _ hcd
          | rel h' => exact lt_asymm hcd h'
        · intro _
          rfl
      · rw [if_neg hcd]
        by_cases hdc : d < c
        · rw [if_pos hdc]
          constructor
          · intro h
            cases h
          · intro h
            exact absurd (List.Lex.rel hdc) h
        · rw [if_neg hdc]
          have hceq : c = d := le_antisymm (le_of_not_lt hdc) (le_of_not_lt hcd)
          subst hceq
          rw [ih ds]
          constructor
          · intro h hl
            cases hl with
            | cons h' => exact h h'
            | rel h' => exact hcd h'
          · intro h hl
            exact h (List.Lex.cons hl)

theorem leb_le (a b : String) : leb a.data b.data = true ↔ a ≤ b := by
  rw [String.le_iff_toList_le, ← not_lt]
  exact leb_iff_not_lex a.data b.data

theorem insertString_perm (s : String) : ∀ l, (insertString s l).Perm (s :: l)
  | [] => List.Perm.refl _
  | t :: rest => by
    simp only [insertString]
    by_cases h : leb s.data t.data = true
    · rw [if_pos h]
    · rw [if_neg h]
      exact ((insertString_perm s rest).cons t).trans (List.Perm.swap s t rest)

theorem sortStrings_perm : ∀ l, (sortStrings l).Perm l
  | [] => List.Perm.refl _
  | s :: rest =>
    (insertString_perm s (sortStrings rest)).trans ((sortStrings_perm rest).cons s)

theorem insertString_sorted (s : String) :
    ∀ {l}, List.Sorted (· ≤ ·) l → List.Sorted (· ≤ ·) (insertString s l) := by
  intro l
  induction l with
  | nil =>
    intro _
    simp [insertString]
  | cons t rest ih =>
    intro hs
    rw [List.sorted_cons] at hs
    obtain ⟨ht, hrest⟩ := hs
    simp only [insertString]
    by_cases h : leb s.data t.data = true
    · rw [if_pos h]
      rw [List.sorted_cons]
      refine ⟨?_, List.sorted_cons.mpr ⟨ht, hrest⟩⟩
      intro b hb
      rcases List.mem_cons.mp hb with rfl | hb'
      · exact (leb_le s b).mp h
      · exact le_trans ((leb_le s t).mp h) (ht b hb')
    · rw [if_neg h]
      rw [List.sorted_cons]
      refine ⟨?_, ih hrest⟩
      intro b hb
      rw [(insertString_perm s rest).mem_iff] at hb
      rcases List.mem_cons.mp hb with rfl | hb'
      · exact le_of_not_le (fun hle => h ((leb_le b t).mpr hle))
      · exact ht b hb'

theorem sortStrings_sorted : ∀ l, List.Sorted (· ≤ ·) (sortStrings l)
  | [] => List.sorted_nil
  | s :: rest => insertString_sorted s (sortStrings_sorted rest)

theorem insertKey_mem (acc : List String) (k k' : String) :
    k' ∈ insertKey acc k ↔ k' ∈ acc ∨ k' = k := by
  simp only [insertKey]
  by_cases h : k ∈ acc
  · rw [if_pos h]
    constructor
    · exact Or.inl
    · rintro (h' | rfl)
      · exact h'
      · exact h
  · rw [if_neg h]
    simp [List.mem_append]

theorem insertKey_nodup {acc : List String} (k : String) (h : acc.Nodup) :
    (insertKey acc k).Nodup := by
  simp only [insertKey]
  by_cases hm : k ∈ acc
  · rw [if_pos hm]; exact h
  · rw [if_neg hm]
    rw [List.nodup_append]
    refine ⟨h, List.nodup_singleton k, ?_⟩
    intro a ha hb
    have : a = k := by simpa using hb
    exact hm (this ▸ ha)

theorem fromStep_mem (acc : List String) (line : List Char) (k : String) :
    k ∈ fromStep acc line ↔
      k ∈ acc ∨ ∃ i v, matchFromDep line = some (i, v) ∧ k = i ++ ":" ++ v := by
  cases hf : matchFromDep line with
  | none =>
    simp only [fromStep, hf]
    constructor
    · exact Or.inl
    · rintro (h | ⟨i, v, hm, rfl⟩)
      · exact h
      · cases hm
  | some p =>
    obtain ⟨i, v⟩ := p
    simp only [fromStep, hf]
    rw [insertKey_mem]
    constructor
    · rintro (h | rfl)
      · exact Or.inl h
      · exact Or.inr ⟨i, v, rfl, rfl⟩
    · rintro (h | ⟨i', v', hm, rfl⟩)
      · exact Or.inl h
      · cases hm
        exact Or.inr rfl

theorem copyStep_mem (sn acc : List String) (line : List Char) (k : String) :
    k ∈ copyStep sn acc line ↔
      k ∈ acc ∨ ∃ ref i v, matchCopyFrom line = some ref ∧ ref ∉ sn ∧
        findRegistryRef ref.toList = some (i, v) ∧ k = i ++ ":" ++ v := by
  cases hc : matchCopyFrom line with
  | none =>
    simp only [copyStep, hc]
    constructor
    · exact Or.inl
    · rintro (h | ⟨r, i, v, hm, _⟩)
      · exact h
      · cases hm
  | some ref =>
    by_cases hin : ref ∈ sn
    · simp only [copyStep, hc, if_pos hin]
      constructor
      · exact Or.inl
      · rintro (h | ⟨r, i, v, hm, hns, _⟩)
        · exact h
        · cases hm
          exact absurd hin hns
    · cases hr : findRegistryRef ref.toList with
      | none =>
        simp only [copyStep, hc, if_neg hin, hr]
        constructor
        · exact Or.inl
        · rintro (h | ⟨r, i, v, hm, _, hfr, _⟩)
          · exact h
          · cases hm
            rw [hr] at hfr
            cases hfr
      | some p =>
        obtain ⟨i, v⟩ := p
        simp only [copyStep, hc, if_neg hin, hr]
        rw [insertKey_mem]
        constructor
        · rintro (h | rfl)
          · exact Or.inl h
          · exact Or.inr ⟨ref, i, v, rfl, hin, hr, rfl⟩
        · rintro (h | ⟨r, i', v', hm, _, hfr, rfl⟩)
          · exact Or.inl h
          · cases hm
            rw [hr] at hfr
            cases hfr
            exact Or.inr rfl

theorem depsOfLine_mem (sn acc : List String) (line : List Char) (k : String) :
    k ∈ depsOfLine sn acc line ↔ k ∈ acc ∨ lineProduces sn line k := by
  simp only [depsOfLine, lineProduces]
  rw [copyStep_mem, fromStep_mem, or_assoc]

theorem depsOfLine_nodup (sn : List String) {acc : List String} (line : List Char)
    (h : acc.Nodup) : (depsOfLine sn acc line).Nodup := by
  have h1 : (fromStep acc line).Nodup := by
    cases hf : matchFromDep line with
    | none => simpa [fromStep, hf] using h
    | some p =>
      obtain ⟨i, v⟩ := p
      simp only [fromStep, hf]
      exact insertKey_nodup _ h
  simp only [depsOfLine]
  cases hc : matchCopyFrom line with
  | none =>
    simp only [copyStep, hc]
    exact h1
  | some ref =>
    by_cases hin : ref ∈ sn
    · simp only [copyStep, hc, if_pos hin]
      exact h1
    · cases hr : findRegistryRef ref.toList with
      | none =>
        simp only [copyStep, hc, if_neg hin, hr]
        exact h1
      | some p =>
        obtain ⟨i, v⟩ := p
        simp only [copyStep, hc, if_neg hin, hr]
        exact insertKey_nodup _ h1

theorem foldl_deps_mem (sn : List String) :
    ∀ (lines : List (List Char)) (acc : List String) (k : String),
      k ∈ lines.foldl (depsOfLine sn) acc ↔
        k ∈ acc ∨ ∃ line ∈ lines, lineProduces sn line k := by
  intro lines
  induction lines with
  | nil => intro acc k; simp
  | cons l rest ih =>
    intro acc k
    simp only [List.foldl_cons]
    rw [ih, depsOfLine_mem]
    constructor
    · rintro ((h | h) | ⟨line, hmem, hp⟩)
      · exact Or.inl h
      · exact Or.inr ⟨l, List.mem_cons_self _ _, h⟩
      · exact Or.inr ⟨line, List.mem_cons_of_mem _ hmem, hp⟩
    · rintro (h | ⟨line, hmem, hp⟩)
      · exact Or.inl (Or.inl h)
      · rcases List.mem_cons.mp hmem with rfl | hmem'
        · exact Or.inl (Or.inr hp)
        · exact Or.inr ⟨line, hmem', hp⟩

theorem foldl_deps_nodup (sn : List String) :
    ∀ (lines : List (List Char)) (acc : List String), acc.Nodup →
      (lines.foldl (depsOfLine sn) acc).Nodup := by
  intro lines
  induction lines with
  | nil => intro acc h; exact h
  | cons l rest ih =>
    intro acc h
    exact ih _ (depsOfLine_nodup sn l h)

/-- C3. For every build-file text, dependency extraction returns exactly the
deduplicated set of `<image>:<version>` keys contributed by origin lines in
the registry-placeholder form and by staging-directive references in that
form that do not name one of the file's own stage aliases, sorted
lexicographically and without duplicates. -/
theorem parseDockerfileDependencies_spec (content : String) :
    List.Sorted (· ≤ ·) (parseDockerfileDependencies content) ∧
    (parseDockerfileDependencies content).Nodup ∧
    ∀ k, k ∈ parseDockerfileDependencies content ↔ isDependencyKey content k := by
  have hperm := sortStrings_perm
    ((splitLinesChars content.toList).foldl
      (depsOfLine (stageNamesOf content.toList)) [])
  refine ⟨?_, ?_, ?_⟩
  · exact sortStrings_sorted _
  · show (sortStrings _).Nodup
    exact hperm.nodup_iff.mpr
      (foldl_deps_nodup _ (splitLinesChars content.toList) [] List.nodup_nil)
  · intro k
    show k ∈ sortStrings _ ↔ _
    rw [hperm.mem_iff, foldl_deps_mem]
    simp only [List.not_mem_nil, false_or]
    rfl

/-- The spec's extraction example, evaluated end to end: the two registry
references are collected, the duplicate collapses, and the result is
sorted. -/
theorem parseDockerfileDependencies_example :
    parseDockerfileDependencies
      ("ARG REGISTRY=test.io\nFROM ${REGISTRY}/base:v1\n" ++
       "COPY --from=${REGISTRY}/builder:v2 /src /dst\n" ++
       "COPY --from=${REGISTRY}/builder:v2 /a /b") =
      ["base:v1", "builder:v2"] := by decide

/-- A staging reference naming the file's own stage alias is excluded. -/
theorem parseDockerfileDependencies_alias_example :
    parseDockerfileDependencies
      "FROM ${REGISTRY}/base:v1 AS builder\nCOPY --from=builder /a /b" =
      ["base:v1"] := by decide

end Dockerfiles
